import Mathlib

/-!
# Verification of the `evaporatext` steganographic codec (`src/text_removal.rs`)

Shallow embedding of the Rust module `text_removal.rs` and proofs of the
specification's testable properties.

Modelling conventions:
* A Rust `String` / `&str` is modelled as the list of its Unicode scalar
  values (`List Nat`).  Rust's type system guarantees every `&str` is valid
  UTF-8, which in this model becomes the (decidable) predicate `IsStr`.
* The byte representation `str::as_bytes` is `utf8Encode`, and
  `std::str::from_utf8` / `String::from_utf8` is `utf8Chars`, a byte-exact
  model of std's UTF-8 validation automaton (it accepts exactly the
  canonical encodings of scalar values: overlong forms, surrogates and
  out-of-range values are rejected).
* Machine integers (`u8`, `usize`) are modelled as `Nat`; none of the
  translated arithmetic can overflow (`result |= 1 << i` with `i < 8`
  stays below 256, and all `usize` values are list lengths).
-/

namespace Evaporatext

/-- A Unicode scalar value: any code point except the surrogate range,
below `0x110000`.  This is the invariant of Rust's `char`. -/
def Scalar (c : Nat) : Prop := c < 0xD800 ∨ (0xDFFF < c ∧ c < 0x110000)

instance (c : Nat) : Decidable (Scalar c) := by
  unfold Scalar; infer_instance

/-- Validity of a modelled Rust string: every element is a scalar value. -/
def IsStr (s : List Nat) : Prop := ∀ c ∈ s, Scalar c

instance (s : List Nat) : Decidable (IsStr s) := by
  unfold IsStr; infer_instance

/-- UTF-8 encoding of a single scalar value (1 to 4 bytes). -/
def utf8EncodeChar (c : Nat) : List Nat :=
  if c < 0x80 then [c]
  else if c < 0x800 then [0xC0 + c / 64, 0x80 + c % 64]
  else if c < 0x10000 then [0xE0 + c / 4096, 0x80 + c / 64 % 64, 0x80 + c % 64]
  else [0xF0 + c / 262144, 0x80 + c / 4096 % 64, 0x80 + c / 64 % 64, 0x80 + c % 64]

/-- The UTF-8 byte representation of a string (Rust `str::as_bytes`). -/
def utf8Encode (s : List Nat) : List Nat := (s.map utf8EncodeChar).flatten

/-- One step of std's UTF-8 validation (`core::str::validations`): decode a
single character from leading byte `b0` and remaining bytes `l`, returning
the scalar value and the bytes left over, or `none` for invalid input.
The acceptance ranges are byte-for-byte those of `run_utf8_validation`:
continuation bytes are `0x80..=0xBF`, with the restricted ranges for the
leading bytes `0xE0`, `0xED`, `0xF0`, `0xF4` that exclude overlong forms,
surrogates and values above `0x10FFFF`. -/
def decodeChar (b0 : Nat) (l : List Nat) : Option (Nat × List Nat) :=
  if b0 < 0x80 then some (b0, l)
  else if b0 < 0xC2 then none
  else if b0 < 0xE0 then
    match l with
    | b1 :: l1 =>
      if 0x80 ≤ b1 ∧ b1 < 0xC0 then some ((b0 - 0xC0) * 64 + (b1 - 0x80), l1) else none
    | [] => none
  else if b0 < 0xF0 then
    match l with
    | b1 :: b2 :: l2 =>
      if (if b0 = 0xE0 then 0xA0 ≤ b1 ∧ b1 < 0xC0
          else if b0 = 0xED then 0x80 ≤ b1 ∧ b1 < 0xA0
          else 0x80 ≤ b1 ∧ b1 < 0xC0) ∧ 0x80 ≤ b2 ∧ b2 < 0xC0
      then some ((b0 - 0xE0) * 4096 + (b1 - 0x80) * 64 + (b2 - 0x80), l2) else none
    | _ => none
  else if b0 < 0xF5 then
    match l with
    | b1 :: b2 :: b3 :: l3 =>
      if (if b0 = 0xF0 then 0x90 ≤ b1 ∧ b1 < 0xC0
          else if b0 = 0xF4 then 0x80 ≤ b1 ∧ b1 < 0x90
          else 0x80 ≤ b1 ∧ b1 < 0xC0) ∧ (0x80 ≤ b2 ∧ b2 < 0xC0) ∧ (0x80 ≤ b3 ∧ b3 < 0xC0)
      then some ((b0 - 0xF0) * 262144 + (b1 - 0x80) * 4096 + (b2 - 0x80) * 64 + (b3 - 0x80), l3)
      else none
    | _ => none
  else none

/-- Fuelled UTF-8 decoding of a whole byte string.  Each decoded character
consumes at least one byte, so fuel equal to the length of the input is
always enough (`utf8CharsF_fuel`); the fuel only makes the recursion
structural so that proofs and kernel evaluation stay simple. -/
def utf8CharsF : Nat → List Nat → Option (List Nat)
  | _, [] => some []
  | 0, _ :: _ => none
  | f + 1, b :: t =>
    match decodeChar b t with
    | some (c, rest) => (utf8CharsF f rest).map (fun cs => c :: cs)
    | none => none

/-- Model of `std::str::from_utf8` / `String::from_utf8`: the list of
scalar values of a byte string, or `none` if it is not valid UTF-8. -/
def utf8Chars (l : List Nat) : Option (List Nat) := utf8CharsF l.length l

/-- Every character accepted by `decodeChar` is a scalar value, and the bytes
it consumed are exactly the canonical UTF-8 encoding of that character: std's
validator accepts nothing but canonical encodings. -/
theorem decodeChar_canonical {b0 : Nat} {l : List Nat} {c : Nat} {rest : List Nat}
    (h : decodeChar b0 l = some (c, rest)) :
    Scalar c ∧ b0 :: l = utf8EncodeChar c ++ rest := by
  unfold decodeChar at h
  by_cases h1 : b0 < 0x80
  · rw [if_pos h1, Option.some.injEq, Prod.mk.injEq] at h
    obtain ⟨rfl, rfl⟩ := h
    refine ⟨by unfold Scalar; omega, ?_⟩
    rw [utf8EncodeChar, if_pos h1]; rfl
  rw [if_neg h1] at h
  by_cases h2 : b0 < 0xC2
  · rw [if_pos h2] at h; exact absurd h (by simp)
  rw [if_neg h2] at h
  by_cases h3 : b0 < 0xE0
  · rw [if_pos h3] at h
    match l with
    | [] => exact absurd h (by simp)
    | b1 :: l1 =>
      simp only at h
      split_ifs at h with h4
      rw [Option.some.injEq, Prod.mk.injEq] at h
      obtain ⟨rfl, rfl⟩ := h
      refine ⟨by unfold Scalar; omega, ?_⟩
      rw [utf8EncodeChar, if_neg (by omega), if_pos (by omega)]
      simp only [List.cons_append, List.nil_append, List.cons.injEq]
      exact ⟨by omega, by omega, trivial⟩
  rw [if_neg h3] at h
  by_cases h4 : b0 < 0xF0
  · rw [if_pos h4] at h
    match l with
    | [] => exact absurd h (by simp)
    | [b1] => exact absurd h (by simp)
    | b1 :: b2 :: l2 =>
      simp only at h
      split_ifs at h
      all_goals
        (rw [Option.some.injEq, Prod.mk.injEq] at h
         obtain ⟨rfl, rfl⟩ := h
         refine ⟨by unfold Scalar; omega, ?_⟩
         rw [utf8EncodeChar, if_neg (by omega), if_neg (by omega), if_pos (by omega)]
         simp only [List.cons_append, List.nil_append, List.cons.injEq]
         exact ⟨by omega, by omega, by omega, trivial⟩)
  rw [if_neg h4] at h
  by_cases h5 : b0 < 0xF5
  · rw [if_pos h5] at h
    match l with
    | [] => exact absurd h (by simp)
    | [b1] => exact absurd h (by simp)
    | [b1, b2] => exact absurd h (by simp)
    | b1 :: b2 :: b3 :: l3 =>
      simp only at h
      split_ifs at h
      all_goals
        (rw [Option.some.injEq, Prod.mk.injEq] at h
         obtain ⟨rfl, rfl⟩ := h
         refine ⟨by unfold Scalar; omega, ?_⟩
         rw [utf8EncodeChar, if_neg (by omega), if_neg (by omega), if_neg (by omega)]
         simp only [List.cons_append, List.nil_append, List.cons.injEq]
         exact ⟨by omega, by omega, by omega, by omega, trivial⟩)
  · rw [if_neg h5] at h; exact absurd h (by simp)

/-- `decodeChar` consumes at least the leading byte. -/
theorem decodeChar_rest_length {b0 : Nat} {l : List Nat} {c : Nat} {rest : List Nat}
    (h : decodeChar b0 l = some (c, rest)) : rest.length ≤ l.length := by
  have h2 := (decodeChar_canonical h).2
  have h3 : (b0 :: l).length = (utf8EncodeChar c).length + rest.length := by
    rw [h2, List.length_append]
  have h4 : 1 ≤ (utf8EncodeChar c).length := by
    unfold utf8EncodeChar; split_ifs <;> simp
  simp only [List.length_cons] at h3
  omega

/-- The fuel of `utf8CharsF` is irrelevant once it covers the input length. -/
theorem utf8CharsF_congr : ∀ (f1 f2 : Nat) (l : List Nat),
    l.length ≤ f1 → l.length ≤ f2 → utf8CharsF f1 l = utf8CharsF f2 l := by
  intro f1
  induction f1 using Nat.strong_induction_on with
  | _ f1 ih =>
    intro f2 l h1 h2
    match l with
    | [] =>
      cases f1 <;> cases f2 <;> rfl
    | b :: t =>
      simp only [List.length_cons] at h1 h2
      match f1, f2, h1, h2 with
      | g1 + 1, g2 + 1, h1, h2 =>
        simp only [utf8CharsF]
        cases hd : decodeChar b t with
        | none => rfl
        | some p =>
          obtain ⟨c, rest⟩ := p
          have hr := decodeChar_rest_length hd
          show (utf8CharsF g1 rest).map (fun cs => c :: cs) =
            (utf8CharsF g2 rest).map (fun cs => c :: cs)
          rw [ih g1 (by omega) g2 rest (by omega) (by omega)]

theorem utf8Chars_nil : utf8Chars [] = some [] := rfl

theorem utf8Chars_cons_some {b : Nat} {t : List Nat} {c : Nat} {rest : List Nat}
    (hd : decodeChar b t = some (c, rest)) :
    utf8Chars (b :: t) = (utf8Chars rest).map (fun cs => c :: cs) := by
  unfold utf8Chars
  simp only [List.length_cons, utf8CharsF, hd]
  rw [utf8CharsF_congr t.length rest.length rest (decodeChar_rest_length hd) (Nat.le_refl _)]

theorem utf8Chars_cons_none {b : Nat} {t : List Nat}
    (hd : decodeChar b t = none) : utf8Chars (b :: t) = none := by
  unfold utf8Chars
  simp only [List.length_cons, utf8CharsF, hd]

theorem decodeChar_ascii {b0 : Nat} (h : b0 < 0x80) (l : List Nat) :
    decodeChar b0 l = some (b0, l) := by
  unfold decodeChar; rw [if_pos h]

theorem decodeChar_two {b0 b1 : Nat} (l : List Nat)
    (h1 : 0xC2 ≤ b0) (h2 : b0 < 0xE0) (h3 : 0x80 ≤ b1 ∧ b1 < 0xC0) :
    decodeChar b0 (b1 :: l) = some ((b0 - 0xC0) * 64 + (b1 - 0x80), l) := by
  unfold decodeChar
  rw [if_neg (by omega), if_neg (by omega), if_pos h2]
  show (if 0x80 ≤ b1 ∧ b1 < 0xC0 then some ((b0 - 0xC0) * 64 + (b1 - 0x80), l) else none) = _
  rw [if_pos h3]

theorem decodeChar_three {b0 b1 b2 : Nat} (l : List Nat)
    (h1 : 0xE0 ≤ b0) (h2 : b0 < 0xF0)
    (h3 : (if b0 = 0xE0 then 0xA0 ≤ b1 ∧ b1 < 0xC0
           else if b0 = 0xED then 0x80 ≤ b1 ∧ b1 < 0xA0
           else 0x80 ≤ b1 ∧ b1 < 0xC0) ∧ 0x80 ≤ b2 ∧ b2 < 0xC0) :
    decodeChar b0 (b1 :: b2 :: l) =
      some ((b0 - 0xE0) * 4096 + (b1 - 0x80) * 64 + (b2 - 0x80), l) := by
  unfold decodeChar
  rw [if_neg (by omega), if_neg (by omega), if_neg (by omega), if_pos h2]
  show (if (if b0 = 0xE0 then 0xA0 ≤ b1 ∧ b1 < 0xC0
            else if b0 = 0xED then 0x80 ≤ b1 ∧ b1 < 0xA0
            else 0x80 ≤ b1 ∧ b1 < 0xC0) ∧ 0x80 ≤ b2 ∧ b2 < 0xC0
        then some ((b0 - 0xE0) * 4096 + (b1 - 0x80) * 64 + (b2 - 0x80), l) else none) = _
  rw [if_pos h3]

theorem decodeChar_four {b0 b1 b2 b3 : Nat} (l : List Nat)
    (h1 : 0xF0 ≤ b0) (h2 : b0 < 0xF5)
    (h3 : (if b0 = 0xF0 then 0x90 ≤ b1 ∧ b1 < 0xC0
           else if b0 = 0xF4 then 0x80 ≤ b1 ∧ b1 < 0x90
           else 0x80 ≤ b1 ∧ b1 < 0xC0) ∧ (0x80 ≤ b2 ∧ b2 < 0xC0) ∧ (0x80 ≤ b3 ∧ b3 < 0xC0)) :
    decodeChar b0 (b1 :: b2 :: b3 :: l) =
      some ((b0 - 0xF0) * 262144 + (b1 - 0x80) * 4096 + (b2 - 0x80) * 64 + (b3 - 0x80), l) := by
  unfold decodeChar
  rw [if_neg (by omega), if_neg (by omega), if_neg (by omega), if_neg (by omega), if_pos h2]
  show (if (if b0 = 0xF0 then 0x90 ≤ b1 ∧ b1 < 0xC0
            else if b0 = 0xF4 then 0x80 ≤ b1 ∧ b1 < 0x90
            else 0x80 ≤ b1 ∧ b1 < 0xC0) ∧ (0x80 ≤ b2 ∧ b2 < 0xC0) ∧ (0x80 ≤ b3 ∧ b3 < 0xC0)
        then some ((b0 - 0xF0) * 262144 + (b1 - 0x80) * 4096 + (b2 - 0x80) * 64 + (b3 - 0x80), l)
        else none) = _
  rw [if_pos h3]

/-- Acceptance direction: `decodeChar` accepts the canonical encoding of any
scalar value and consumes exactly its bytes. -/
theorem decodeChar_encodeChar {c : Nat} (hc : Scalar c) (l : List Nat) :
    ∃ b t, utf8EncodeChar c = b :: t ∧ decodeChar b (t ++ l) = some (c, l) := by
  have hc' : c < 0xD800 ∨ (0xDFFF < c ∧ c < 0x110000) := hc
  by_cases h1 : c < 0x80
  · refine ⟨c, [], by rw [utf8EncodeChar, if_pos h1], ?_⟩
    rw [List.nil_append]; exact decodeChar_ascii h1 l
  by_cases h2 : c < 0x800
  · refine ⟨0xC0 + c / 64, [0x80 + c % 64], by rw [utf8EncodeChar, if_neg h1, if_pos h2], ?_⟩
    rw [List.cons_append, List.nil_append, decodeChar_two l (by omega) (by omega) (by omega)]
    simp only [Option.some.injEq, Prod.mk.injEq]
    exact ⟨by omega, trivial⟩
  by_cases h3 : c < 0x10000
  · refine ⟨0xE0 + c / 4096, [0x80 + c / 64 % 64, 0x80 + c % 64],
      by rw [utf8EncodeChar, if_neg h1, if_neg h2, if_pos h3], ?_⟩
    rw [List.cons_append, List.cons_append, List.nil_append,
      decodeChar_three l (by omega) (by omega) (by split_ifs <;> omega)]
    simp only [Option.some.injEq, Prod.mk.injEq]
    exact ⟨by omega, trivial⟩
  · refine ⟨0xF0 + c / 262144, [0x80 + c / 4096 % 64, 0x80 + c / 64 % 64, 0x80 + c % 64],
      by rw [utf8EncodeChar, if_neg h1, if_neg h2, if_neg h3], ?_⟩
    rw [List.cons_append, List.cons_append, List.cons_append, List.nil_append,
      decodeChar_four l (by omega) (by omega) (by split_ifs <;> omega)]
    simp only [Option.some.injEq, Prod.mk.injEq]
    exact ⟨by omega, trivial⟩

theorem utf8Chars_encodeChar_append {c : Nat} (hc : Scalar c) (l : List Nat) :
    utf8Chars (utf8EncodeChar c ++ l) = (utf8Chars l).map (fun cs => c :: cs) := by
  obtain ⟨b, t, he, hd⟩ := decodeChar_encodeChar hc l
  rw [he, List.cons_append, utf8Chars_cons_some hd]

theorem utf8Encode_cons (c : Nat) (s : List Nat) :
    utf8Encode (c :: s) = utf8EncodeChar c ++ utf8Encode s := by
  simp [utf8Encode]

theorem utf8Encode_append (s t : List Nat) :
    utf8Encode (s ++ t) = utf8Encode s ++ utf8Encode t := by
  simp [utf8Encode]

/-- Decoding the encoding of a valid string, followed by arbitrary extra
bytes, decodes the string and continues with the extra bytes. -/
theorem utf8Chars_encode_append (s : List Nat) (hs : IsStr s) (l : List Nat) :
    utf8Chars (utf8Encode s ++ l) = (utf8Chars l).map (fun cs => s ++ cs) := by
  induction s with
  | nil =>
    show utf8Chars (utf8Encode [] ++ l) = _
    rw [show utf8Encode [] = [] from rfl, List.nil_append]
    cases utf8Chars l <;> simp
  | cons c s ih =>
    have hc : Scalar c := hs c (by simp)
    have hs' : IsStr s := fun x hx => hs x (by simp [hx])
    rw [utf8Encode_cons, List.append_assoc, utf8Chars_encodeChar_append hc, ih hs']
    cases utf8Chars l <;> simp

/-- `String::from_utf8` inverts `as_bytes` on valid strings. -/
theorem utf8Chars_encode (s : List Nat) (hs : IsStr s) :
    utf8Chars (utf8Encode s) = some s := by
  have h := utf8Chars_encode_append s hs []
  rw [List.append_nil, utf8Chars_nil] at h
  simpa using h

/-- A byte string accepted by UTF-8 validation is the canonical encoding of
its (valid) character string. -/
theorem utf8Chars_canonical : ∀ (a cs : List Nat),
    utf8Chars a = some cs → a = utf8Encode cs ∧ IsStr cs := by
  have key : ∀ (n : Nat) (a cs : List Nat), a.length ≤ n →
      utf8Chars a = some cs → a = utf8Encode cs ∧ IsStr cs := by
    intro n
    induction n with
    | zero =>
      intro a cs ha h
      match a, ha with
      | [], _ =>
        rw [utf8Chars_nil, Option.some.injEq] at h
        subst h
        exact ⟨rfl, by intro x hx; cases hx⟩
    | succ n ih =>
      intro a cs ha h
      match a with
      | [] =>
        rw [utf8Chars_nil, Option.some.injEq] at h
        subst h
        exact ⟨rfl, by intro x hx; cases hx⟩
      | b :: t =>
        cases hd : decodeChar b t with
        | none => rw [utf8Chars_cons_none hd] at h; cases h
        | some p =>
          obtain ⟨c, rest⟩ := p
          rw [utf8Chars_cons_some hd] at h
          cases hr : utf8Chars rest with
          | none => rw [hr] at h; cases h
          | some cs' =>
            rw [hr] at h
            simp only [Option.map_some', Option.some.injEq] at h
            subst h
            obtain ⟨hS, hcan⟩ := decodeChar_canonical hd
            have hlen := decodeChar_rest_length hd
            simp only [List.length_cons] at ha
            obtain ⟨he, hstr⟩ := ih rest cs' (by omega) hr
            constructor
            · rw [utf8Encode_cons, ← he, hcan]
            · intro x hx
              rcases List.mem_cons.mp hx with rfl | hx'
              · exact hS
              · exact hstr x hx'
  intro a cs h
  exact key a.length a cs (Nat.le_refl _) h

/-- Decoding distributes over an append whose first part is valid UTF-8. -/
theorem utf8Chars_append_of_some {a cs1 : List Nat}
    (h : utf8Chars a = some cs1) (b : List Nat) :
    utf8Chars (a ++ b) = (utf8Chars b).map (fun cs => cs1 ++ cs) := by
  obtain ⟨rfl, hstr⟩ := utf8Chars_canonical a cs1 h
  exact utf8Chars_encode_append cs1 hstr b

/-- Every byte after the first in a character's UTF-8 encoding is a
continuation byte (`0x80..=0xBF`). -/
theorem encodeChar_continuation {c : Nat} (hc : Scalar c) {i : Nat} (h0 : 0 < i)
    (hi : i < (utf8EncodeChar c).length) :
    ∃ b, (utf8EncodeChar c)[i]? = some b ∧ 0x80 ≤ b ∧ b < 0xC0 := by
  have hc' : c < 0xD800 ∨ (0xDFFF < c ∧ c < 0x110000) := hc
  unfold utf8EncodeChar at hi ⊢
  split_ifs at hi ⊢ with h1 h2 h3
  · simp at hi; omega
  · simp only [List.length_cons, List.length_nil] at hi
    interval_cases i
    · exact ⟨0x80 + c % 64, rfl, by omega, by omega⟩
  · simp only [List.length_cons, List.length_nil] at hi
    interval_cases i
    · exact ⟨0x80 + c / 64 % 64, rfl, by omega, by omega⟩
    · exact ⟨0x80 + c % 64, rfl, by omega, by omega⟩
  · simp only [List.length_cons, List.length_nil] at hi
    interval_cases i
    · exact ⟨0x80 + c / 4096 % 64, rfl, by omega, by omega⟩
    · exact ⟨0x80 + c / 64 % 64, rfl, by omega, by omega⟩
    · exact ⟨0x80 + c % 64, rfl, by omega, by omega⟩

/-- Model of Rust `str::is_char_boundary` on the byte representation:
index 0 is always a boundary, the end-of-string index is a boundary, and an
interior index is a boundary exactly when the byte there is not a UTF-8
continuation byte (`(b as i8) >= -0x40`, i.e. `b < 0x80 || b >= 0xC0`). -/
def is_char_boundary (d : List Nat) (i : Nat) : Bool :=
  if i = 0 then true
  else
    match d[i]? with
    | none => decide (i = d.length)
    | some b => decide (b < 0x80) || decide (0xBF < b)

/-- Model of the boundary search loop in `create_secret`:
`while !normal_str.is_char_boundary(mid) { mid -= 1 }`.  The loop always
terminates because index 0 is unconditionally a boundary. -/
def find_boundary (d : List Nat) : Nat → Nat
  | 0 => 0
  | m + 1 => if is_char_boundary d (m + 1) then m + 1 else find_boundary d m

theorem find_boundary_le (d : List Nat) : ∀ m, find_boundary d m ≤ m := by
  intro m
  induction m with
  | zero => exact Nat.le_refl _
  | succ m ih =>
    unfold find_boundary
    split_ifs
    · exact Nat.le_refl _
    · exact Nat.le_trans ih (Nat.le_succ m)

theorem is_char_boundary_zero (d : List Nat) : is_char_boundary d 0 = true := rfl

theorem find_boundary_is_boundary (d : List Nat) :
    ∀ m, is_char_boundary d (find_boundary d m) = true := by
  intro m
  induction m with
  | zero => exact is_char_boundary_zero d
  | succ m ih =>
    unfold find_boundary
    split_ifs with h
    · exact h
    · exact ih

/-- Splitting a valid UTF-8 byte string at a character boundary yields two
valid pieces whose character strings concatenate to the original one:
a boundary index never falls inside a multi-byte character. -/
theorem utf8Chars_split_at_boundary : ∀ (d cs : List Nat), utf8Chars d = some cs →
    ∀ m, m ≤ d.length → is_char_boundary d m = true →
    ∃ cs1 cs2, cs = cs1 ++ cs2 ∧
      utf8Chars (d.take m) = some cs1 ∧ utf8Chars (d.drop m) = some cs2 := by
  have main : ∀ (n : Nat) (d cs : List Nat), d.length ≤ n → utf8Chars d = some cs →
      ∀ m, m ≤ d.length → is_char_boundary d m = true →
      ∃ cs1 cs2, cs = cs1 ++ cs2 ∧
        utf8Chars (d.take m) = some cs1 ∧ utf8Chars (d.drop m) = some cs2 := by
    intro n
    induction n with
    | zero =>
      intro d cs hn h m hm _
      match d, hn with
      | [], _ =>
        have hm0 : m = 0 := by simpa using hm
        subst hm0
        exact ⟨[], cs, rfl, utf8Chars_nil, h⟩
    | succ n ih =>
      intro d cs hn h m hm hb
      by_cases hm0 : m = 0
      · subst hm0
        exact ⟨[], cs, rfl, utf8Chars_nil, h⟩
      match d with
      | [] => simp at hm; omega
      | b :: t =>
        cases hd : decodeChar b t with
        | none => rw [utf8Chars_cons_none hd] at h; cases h
        | some p =>
          obtain ⟨c, rest⟩ := p
          rw [utf8Chars_cons_some hd] at h
          cases hr : utf8Chars rest with
          | none => rw [hr] at h; cases h
          | some cs' =>
            rw [hr] at h
            simp only [Option.map_some', Option.some.injEq] at h
            subst h
            obtain ⟨hS, hcan⟩ := decodeChar_canonical hd
            have hk1 : 1 ≤ (utf8EncodeChar c).length := by
              unfold utf8EncodeChar; split_ifs <;> simp
            have hlen : (b :: t).length = (utf8EncodeChar c).length + rest.length := by
              rw [hcan, List.length_append]
            by_cases hmk : m < (utf8EncodeChar c).length
            · -- the boundary hypothesis is contradictory: byte m is a
              -- continuation byte inside the first character
              exfalso
              obtain ⟨bc, hbc, hbc1, hbc2⟩ := encodeChar_continuation hS (by omega) hmk
              have hdm : (b :: t)[m]? = some bc := by
                rw [hcan, List.getElem?_append, if_pos hmk, hbc]
              unfold is_char_boundary at hb
              rw [if_neg hm0, hdm] at hb
              simp at hb
              omega
            · push_neg at hmk
              have htake : (b :: t).take m = utf8EncodeChar c ++ rest.take (m - (utf8EncodeChar c).length) := by
                rw [hcan, List.take_append_eq_append_take, List.take_of_length_le hmk]
              have hdrop : (b :: t).drop m = rest.drop (m - (utf8EncodeChar c).length) := by
                rw [hcan, List.drop_append_eq_append_drop, List.drop_of_length_le hmk,
                  List.nil_append]
              have hb' : is_char_boundary rest (m - (utf8EncodeChar c).length) = true := by
                by_cases hz : m - (utf8EncodeChar c).length = 0
                · rw [hz]; exact is_char_boundary_zero rest
                · have hdm : (b :: t)[m]? = rest[m - (utf8EncodeChar c).length]? := by
                    rw [hcan, List.getElem?_append_right hmk]
                  unfold is_char_boundary at hb ⊢
                  rw [if_neg hm0, hdm] at hb
                  rw [if_neg hz]
                  cases hre : rest[m - (utf8EncodeChar c).length]? with
                  | none =>
                    rw [hre] at hb
                    simp only [decide_eq_true_eq] at hb ⊢
                    omega
                  | some bb => rw [hre] at hb; exact hb
              have hrec := ih rest cs' (by omega) hr
                (m - (utf8EncodeChar c).length) (by omega) hb'
              obtain ⟨cs1', cs2', hsp, h1, h2⟩ := hrec
              refine ⟨c :: cs1', cs2', by rw [hsp]; rfl, ?_, ?_⟩
              · rw [htake, utf8Chars_encodeChar_append hS, h1]
                rfl
              · rw [hdrop]; exact h2
  intro d cs h m hm hb
  exact main d.length d cs (Nat.le_refl _) h m hm hb

/-! ## The `text_removal.rs` module

Translations of the Rust source, string-typed values being lists of scalar
values and byte-level work going through `utf8Encode` / `utf8Chars`. -/

/-- `I_0`: the string `"\u{200C}"` (zero-width non-joiner), marker for bit 0. -/
def I_0 : List Nat := [0x200C]

/-- `I_1`: the string `"\u{200D}"` (zero-width joiner), marker for bit 1. -/
def I_1 : List Nat := [0x200D]

/-- `EXP_SIZE`: the UTF-8 byte size of either marker. -/
def EXP_SIZE : Nat := 3

/-- `encode_byte`: for bits `i = 0..8` (LSB first), push `I_1` when
`(byte >> i) & 1 == 1`, else `I_0`. -/
def encode_byte (byte : Nat) : List Nat :=
  ((List.range 8).map (fun i => if byte >>> i &&& 1 = 1 then I_1 else I_0)).flatten

/-- The accumulation loop of `decode_byte`: over the 3-byte chunks,
enumerated from index `i`, do `result |= 1 << i` whenever the chunk equals
`I_1.as_bytes()`. -/
def db_loop : List (List Nat) → Nat → Nat → Nat
  | [], _, acc => acc
  | ch :: cs, i, acc =>
    db_loop cs (i + 1) (if ch = utf8Encode I_1 then acc ||| (1 <<< i) else acc)

/-- Rust `slice::chunks_exact(n)`: the consecutive full chunks of `n`
elements, with any shorter remainder dropped.  Fuelled structural
recursion; fuel `l.length` always suffices since `n ≥ 1` on every call. -/
def chunksF (n : Nat) : Nat → List Nat → List (List Nat)
  | 0, _ => []
  | f + 1, l => if n ≤ l.length ∧ n ≠ 0 then l.take n :: chunksF n f (l.drop n) else []

def chunksExact (n : Nat) (l : List Nat) : List (List Nat) := chunksF n l.length l

/-- `decode_byte`: `None` unless the input has exactly `8 * EXP_SIZE`
underlying bytes; otherwise run the bit-accumulation loop over the 3-byte
chunks. -/
def decode_byte (data : List Nat) : Option Nat :=
  if (utf8Encode data).length ≠ 8 * EXP_SIZE then none
  else some (db_loop (chunksExact EXP_SIZE (utf8Encode data)) 0 0)

/-- `encode`: `data.bytes().map(encode_byte).collect()` — encode every byte
of the UTF-8 representation of `data` and concatenate. -/
def encode (data : List Nat) : List Nat :=
  ((utf8Encode data).map encode_byte).flatten

/-- The `.map(..).collect::<Option<Vec<u8>>>()` step of `decode`: each
chunk must be valid UTF-8 (`std::str::from_utf8(chunk).ok()?`) and then
decode via `decode_byte`; any failure aborts with `none`. -/
def collectBytes : List (List Nat) → Option (List Nat)
  | [] => some []
  | chunk :: rest =>
    match (utf8Chars chunk).bind decode_byte with
    | some b => (collectBytes rest).map (fun bs => b :: bs)
    | none => none

/-- `decode`: reject unless the byte length is a multiple of `8 * EXP_SIZE`,
decode each 24-byte chunk to a byte, then `String::from_utf8`. -/
def decode (data : List Nat) : Option (List Nat) :=
  if (utf8Encode data).length % (8 * EXP_SIZE) ≠ 0 then none
  else
    match collectBytes (chunksExact (8 * EXP_SIZE) (utf8Encode data)) with
    | some bs => utf8Chars bs
    | none => none

/-- `remove_unnecessary_symbols`: keep exactly the characters matched by
the regex `[\u{200C}|\u{200D}]` built in the source.  The pattern is a
character *class*, so it matches three single characters: U+200C, the
literal vertical bar `'|'` (U+007C), and U+200D; `find_iter` over
single-character matches followed by `collect` is a character filter. -/
def remove_unnecessary_symbols (data : List Nat) : List Nat :=
  data.filter (fun ch => ch == 0x200C || ch == 0x7C || ch == 0x200D)

/-- `create_secret`: compute `mid = normal_str.len() / 2` in bytes, walk it
down to a character boundary, and return
`format!("{}{}{}", &normal_str[..mid], encode(secret), &normal_str[mid..])`.
The two byte slices are modelled by decoding the corresponding byte spans
back to characters; for a valid cover string and a boundary `mid` the
decodings always succeed (`utf8Chars_split_at_boundary`), so the `getD []`
default is never reached. -/
def create_secret (normal_str secret : List Nat) : List Nat :=
  ((utf8Chars ((utf8Encode normal_str).take
      (find_boundary (utf8Encode normal_str) ((utf8Encode normal_str).length / 2)))).getD [])
    ++ encode secret
    ++ ((utf8Chars ((utf8Encode normal_str).drop
      (find_boundary (utf8Encode normal_str) ((utf8Encode normal_str).length / 2)))).getD [])

/-- `extract_secret`: sanitize with `remove_unnecessary_symbols`, then
`decode`. -/
def extract_secret (message : List Nat) : Option (List Nat) :=
  decode (remove_unnecessary_symbols message)

/-! ## Structure lemmas for the codec -/

theorem flatten_map_singleton_ite (l : List Nat) (P : Nat → Prop) [DecidablePred P]
    (x y : Nat) :
    ((l.map (fun i => if P i then [x] else [y])).flatten
      = l.map (fun i => if P i then x else y)) := by
  induction l with
  | nil => rfl
  | cons a l ih =>
    simp only [List.map_cons, List.flatten_cons, ih]
    by_cases h : P a <;> simp [h]

/-- `encode_byte` is the string of 8 marker characters selected by the bits
of `byte`, LSB first. -/
theorem encode_byte_eq_map (byte : Nat) :
    encode_byte byte
      = (List.range 8).map (fun i => if byte >>> i &&& 1 = 1 then 0x200D else 0x200C) := by
  unfold encode_byte I_1 I_0
  exact flatten_map_singleton_ite _ _ _ _

theorem encode_byte_length (byte : Nat) : (encode_byte byte).length = 8 := by
  rw [encode_byte_eq_map]; simp

theorem encode_byte_mem {byte ch : Nat} (h : ch ∈ encode_byte byte) :
    ch = 0x200C ∨ ch = 0x200D := by
  rw [encode_byte_eq_map] at h
  obtain ⟨i, _, hi⟩ := List.mem_map.mp h
  by_cases hb : byte >>> i &&& 1 = 1
  · right; rw [if_pos hb] at hi; omega
  · left; rw [if_neg hb] at hi; omega

theorem marker_scalar {ch : Nat} (h : ch = 0x200C ∨ ch = 0x200D) : Scalar ch := by
  unfold Scalar; omega

theorem encode_byte_isStr (byte : Nat) : IsStr (encode_byte byte) :=
  fun _ hch => marker_scalar (encode_byte_mem hch)

/-- The byte length of a marker-only string is 3 bytes per marker. -/
theorem utf8Encode_marker_length {s : List Nat}
    (h : ∀ ch ∈ s, ch = 0x200C ∨ ch = 0x200D) :
    (utf8Encode s).length = 3 * s.length := by
  induction s with
  | nil => rfl
  | cons c s ih =>
    rw [utf8Encode_cons, List.length_append, List.length_cons,
      ih (fun ch hch => h ch (List.mem_cons_of_mem c hch))]
    rcases h c (by simp) with rfl | rfl
    · rw [show (utf8EncodeChar 8204).length = 3 from rfl]; ring
    · rw [show (utf8EncodeChar 8205).length = 3 from rfl]; ring

/-- Fuel irrelevance for `chunksF`. -/
theorem chunksF_congr (n : Nat) : ∀ (f1 f2 : Nat) (l : List Nat),
    l.length ≤ f1 → l.length ≤ f2 → chunksF n f1 l = chunksF n f2 l := by
  intro f1
  induction f1 using Nat.strong_induction_on with
  | _ f1 ih =>
    intro f2 l h1 h2
    match f1, f2 with
    | 0, 0 => rfl
    | 0, g2 + 1 =>
      have : l = [] := List.eq_nil_of_length_eq_zero (by omega)
      subst this
      simp [chunksF]
    | g1 + 1, 0 =>
      have : l = [] := List.eq_nil_of_length_eq_zero (by omega)
      subst this
      simp [chunksF]
    | g1 + 1, g2 + 1 =>
      simp only [chunksF]
      split_ifs with hc
      · rw [ih g1 (by omega) g2 (l.drop n) (by simp; omega) (by simp; omega)]
      · rfl

theorem chunksExact_of_length_lt {n : Nat} {l : List Nat} (h : l.length < n) :
    chunksExact n l = [] := by
  unfold chunksExact
  match hl : l.length with
  | 0 => match l, hl with | [], _ => rfl
  | f + 1 =>
    simp only [chunksF]
    rw [if_neg (by omega)]

theorem chunksExact_cons {n : Nat} (hn : 0 < n) {l : List Nat} (h : n ≤ l.length) :
    chunksExact n l = l.take n :: chunksExact n (l.drop n) := by
  unfold chunksExact
  match hl : l.length, h with
  | 0, h => omega
  | f + 1, h =>
    simp only [chunksF]
    rw [if_pos ⟨by omega, by omega⟩]
    congr 1
    exact chunksF_congr n f (l.drop n).length (l.drop n) (by simp; omega) (Nat.le_refl _)

/-- `chunks_exact` splits a concatenation of `n`-length blocks back into
exactly those blocks. -/
theorem chunksExact_flatten {n : Nat} (hn : 0 < n) :
    ∀ (blocks : List (List Nat)), (∀ bl ∈ blocks, bl.length = n) →
    chunksExact n blocks.flatten = blocks := by
  intro blocks
  induction blocks with
  | nil => intro _; exact chunksExact_of_length_lt (by simpa using hn)
  | cons bl blocks ih =>
    intro h
    have hbl : bl.length = n := h bl (by simp)
    have hrest : ∀ b ∈ blocks, b.length = n := fun b hb => h b (List.mem_cons_of_mem bl hb)
    rw [List.flatten_cons,
      chunksExact_cons hn (by rw [List.length_append]; omega)]
    congr 1
    · rw [← hbl, List.take_left]
    · rw [← hbl, List.drop_left, hbl, ih hrest]

theorem chunksExact_length {n : Nat} (hn : 0 < n) :
    ∀ (l : List Nat), (chunksExact n l).length = l.length / n := by
  have key : ∀ (f : Nat) (l : List Nat), l.length ≤ f →
      (chunksExact n l).length = l.length / n := by
    intro f
    induction f using Nat.strong_induction_on with
    | _ f ih =>
      intro l hl
      by_cases h : l.length < n
      · rw [chunksExact_of_length_lt h, Nat.div_eq_of_lt h]; rfl
      · push_neg at h
        rw [chunksExact_cons hn h, List.length_cons]
        have hd : (l.drop n).length = l.length - n := by simp
        match f, hl with
        | 0, hl => omega
        | g + 1, hl =>
          rw [ih g (by omega) (l.drop n) (by omega), hd,
            Nat.div_eq_sub_div hn h]
  intro l
  exact key l.length l (Nat.le_refl _)

/-- Which bit index the chunk list sets: `bitList cs i j` is true when the
chunk at offset `j - i` (enumeration starting at `i`) equals `I_1`'s bytes. -/
def bitList : List (List Nat) → Nat → Nat → Bool
  | [], _, _ => false
  | ch :: cs, i, j =>
    (decide (ch = utf8Encode I_1) && decide (j = i)) || bitList cs (i + 1) j

theorem testBit_one_shiftLeft (i j : Nat) : (1 <<< i).testBit j = decide (j = i) := by
  rw [Nat.shiftLeft_eq, one_mul, Nat.testBit_two_pow]
  by_cases h : i = j
  · subst h; simp
  · simp [h, Ne.symm h]

theorem db_loop_testBit : ∀ (cs : List (List Nat)) (i acc j : Nat),
    (db_loop cs i acc).testBit j = (acc.testBit j || bitList cs i j) := by
  intro cs
  induction cs with
  | nil => intro i acc j; simp [db_loop, bitList]
  | cons ch cs ih =>
    intro i acc j
    simp only [db_loop, bitList]
    rw [ih]
    by_cases hch : ch = utf8Encode I_1
    · rw [if_pos hch, Nat.testBit_lor, testBit_one_shiftLeft]
      simp [hch, Bool.or_assoc]
    · rw [if_neg hch]
      simp [hch]

theorem bitList_false_of_lt : ∀ (cs : List (List Nat)) (i j : Nat), j < i →
    bitList cs i j = false := by
  intro cs
  induction cs with
  | nil => intros; rfl
  | cons ch cs ih =>
    intro i j h
    simp only [bitList]
    rw [ih (i + 1) j (by omega)]
    simp [show ¬(j = i) from by omega]

theorem bitList_iff : ∀ (cs : List (List Nat)) (i j : Nat), i ≤ j →
    (bitList cs i j = true ↔
      (j - i < cs.length ∧ cs.getD (j - i) [] = utf8Encode I_1)) := by
  intro cs
  induction cs with
  | nil => intro i j h; simp [bitList]
  | cons ch cs ih =>
    intro i j h
    simp only [bitList, Bool.or_eq_true, Bool.and_eq_true, decide_eq_true_eq]
    by_cases hj : j = i
    · subst hj
      rw [bitList_false_of_lt cs (j + 1) j (by omega)]
      simp [Nat.sub_self]
    · rw [ih (i + 1) j (by omega)]
      have hsub : j - i = (j - (i + 1)) + 1 := by omega
      rw [hsub, List.getD_cons_succ]
      simp [hj, Nat.add_lt_add_iff_right]

theorem db_loop_lt : ∀ (cs : List (List Nat)) (i acc : Nat),
    acc < 2 ^ i → db_loop cs i acc < 2 ^ (i + cs.length) := by
  intro cs
  induction cs with
  | nil => intro i acc h; simpa [db_loop] using h
  | cons ch cs ih =>
    intro i acc h
    simp only [db_loop]
    have h2 : (if ch = utf8Encode I_1 then acc ||| 1 <<< i else acc) < 2 ^ (i + 1) := by
      split_ifs
      · have ha : acc < 2 ^ (i + 1) :=
          lt_of_lt_of_le h (Nat.pow_le_pow_right (by omega) (by omega))
        have hb : 1 <<< i < 2 ^ (i + 1) := by
          rw [Nat.shiftLeft_eq, one_mul]
          exact Nat.pow_lt_pow_right (by omega) (by omega)
        exact Nat.bitwise_lt_two_pow ha hb
      · exact lt_of_lt_of_le h (Nat.pow_le_pow_right (by omega) (by omega))
    have h3 := ih (i + 1) _ h2
    rw [show i + 1 + cs.length = i + (cs.length + 1) from by omega] at h3
    simpa using h3

theorem utf8Encode_encode_byte (b : Nat) :
    utf8Encode (encode_byte b)
      = ((List.range 8).map
          (fun i => if b >>> i &&& 1 = 1 then utf8Encode I_1 else utf8Encode I_0)).flatten := by
  rw [encode_byte_eq_map]
  unfold utf8Encode
  rw [List.map_map]
  congr 1
  congr 1
  funext i
  simp only [Function.comp]
  by_cases h : b >>> i &&& 1 = 1 <;> simp only [h, if_true, if_false] <;> decide

/-- `decode_byte` inverts `encode_byte` on byte values. -/
theorem decode_byte_encode_byte {b : Nat} (hb : b < 256) :
    decode_byte (encode_byte b) = some b := by
  have hblocks : ∀ bl ∈ (List.range 8).map
      (fun i => if b >>> i &&& 1 = 1 then utf8Encode I_1 else utf8Encode I_0),
      bl.length = 3 := by
    intro bl hbl
    obtain ⟨i, _, rfl⟩ := List.mem_map.mp hbl
    split_ifs <;> rfl
  have hlen : (utf8Encode (encode_byte b)).length = 24 := by
    rw [utf8Encode_marker_length (fun ch hch => encode_byte_mem hch), encode_byte_length]
  unfold decode_byte
  rw [if_neg (show ¬((utf8Encode (encode_byte b)).length ≠ 8 * EXP_SIZE) from by
    rw [hlen]; decide)]
  congr 1
  rw [show EXP_SIZE = 3 from rfl, utf8Encode_encode_byte,
    chunksExact_flatten (by omega) _ hblocks]
  apply Nat.eq_of_testBit_eq
  intro j
  rw [db_loop_testBit]
  simp only [Nat.zero_testBit, Bool.false_or]
  by_cases hj : j < 8
  · have h1 := bitList_iff ((List.range 8).map
      (fun i => if b >>> i &&& 1 = 1 then utf8Encode I_1 else utf8Encode I_0)) 0 j
      (Nat.zero_le j)
    have hget : ((List.range 8).map
        (fun i => if b >>> i &&& 1 = 1 then utf8Encode I_1 else utf8Encode I_0)).getD (j - 0) []
        = (if b >>> j &&& 1 = 1 then utf8Encode I_1 else utf8Encode I_0) := by
      rw [List.getD_eq_getElem?_getD]
      simp [List.getElem?_map, List.getElem?_range, hj]
    rw [hget] at h1
    have hne : utf8Encode I_0 ≠ utf8Encode I_1 := by decide
    have h2 : (if b >>> j &&& 1 = 1 then utf8Encode I_1 else utf8Encode I_0)
        = utf8Encode I_1 ↔ b >>> j &&& 1 = 1 := by
      split_ifs with hbit
      · simp [hbit]
      · have hbit' : ¬(b >>> j % 2 = 1) := by rwa [Nat.and_one_is_mod] at hbit
        rw [Nat.and_one_is_mod]
        simp [hne, hbit']
    have h3 : b.testBit j = true ↔ b >>> j &&& 1 = 1 := by
      rw [Nat.testBit_to_div_mod]
      rw [Nat.shiftRight_eq_div_pow, Nat.and_one_is_mod]
      simp
    rw [Bool.eq_iff_iff, h1, h3, h2]
    simp [hj]
  · push_neg at hj
    have h1 := bitList_iff ((List.range 8).map
      (fun i => if b >>> i &&& 1 = 1 then utf8Encode I_1 else utf8Encode I_0)) 0 j
      (Nat.zero_le j)
    have hfalse : bitList ((List.range 8).map
        (fun i => if b >>> i &&& 1 = 1 then utf8Encode I_1 else utf8Encode I_0)) 0 j = false := by
      cases hbit : bitList ((List.range 8).map
          (fun i => if b >>> i &&& 1 = 1 then utf8Encode I_1 else utf8Encode I_0)) 0 j
      · rfl
      · exfalso
        obtain ⟨hlt, _⟩ := h1.mp hbit
        simp at hlt
        omega
    rw [hfalse, Nat.testBit_lt_two_pow]
    exact lt_of_lt_of_le hb (by
      have : (2 : Nat) ^ 8 ≤ 2 ^ j := Nat.pow_le_pow_right (by omega) hj
      omega)

theorem utf8EncodeChar_lt_256 {c : Nat} (hc : Scalar c) :
    ∀ b ∈ utf8EncodeChar c, b < 256 := by
  have hc' : c < 0xD800 ∨ (0xDFFF < c ∧ c < 0x110000) := hc
  intro b hb
  unfold utf8EncodeChar at hb
  split_ifs at hb <;> simp at hb <;> omega

theorem utf8Encode_lt_256 {s : List Nat} (hs : IsStr s) :
    ∀ b ∈ utf8Encode s, b < 256 := by
  induction s with
  | nil => intro b hb; cases hb
  | cons c s ih =>
    intro b hb
    rw [utf8Encode_cons] at hb
    rcases List.mem_append.mp hb with h | h
    · exact utf8EncodeChar_lt_256 (hs c (by simp)) b h
    · exact ih (fun x hx => hs x (List.mem_cons_of_mem c hx)) b h

theorem utf8Encode_flatten (ls : List (List Nat)) :
    utf8Encode ls.flatten = (ls.map utf8Encode).flatten := by
  induction ls with
  | nil => rfl
  | cons l ls ih =>
    rw [List.flatten_cons, utf8Encode_append, ih, List.map_cons, List.flatten_cons]

theorem utf8Encode_encode_byte_length (b : Nat) :
    (utf8Encode (encode_byte b)).length = 24 := by
  rw [utf8Encode_marker_length (fun ch hch => encode_byte_mem hch), encode_byte_length]

theorem flatten_length_const {ls : List (List Nat)} {n : Nat}
    (h : ∀ l ∈ ls, l.length = n) : ls.flatten.length = n * ls.length := by
  induction ls with
  | nil => simp
  | cons l ls ih =>
    rw [List.flatten_cons, List.length_append, h l (by simp),
      ih (fun x hx => h x (List.mem_cons_of_mem l hx)), List.length_cons]
    ring

theorem collectBytes_blocks : ∀ (bs : List Nat), (∀ b ∈ bs, b < 256) →
    collectBytes (bs.map (fun b => utf8Encode (encode_byte b))) = some bs := by
  intro bs
  induction bs with
  | nil => intro _; rfl
  | cons b bs ih =>
    intro h
    simp only [List.map_cons, collectBytes]
    rw [utf8Chars_encode (encode_byte b) (encode_byte_isStr b)]
    rw [Option.some_bind, decode_byte_encode_byte (h b (by simp))]
    rw [ih (fun x hx => h x (List.mem_cons_of_mem b hx))]
    rfl

/-- The codec round-trip at the message level: `decode(encode(s)) == s` for
every valid payload string. -/
theorem decode_encode {s : List Nat} (hs : IsStr s) : decode (encode s) = some s := by
  have hbytes : utf8Encode (encode s)
      = ((utf8Encode s).map (fun b => utf8Encode (encode_byte b))).flatten := by
    unfold encode
    rw [utf8Encode_flatten, List.map_map]
    rfl
  have hblock : ∀ bl ∈ (utf8Encode s).map (fun b => utf8Encode (encode_byte b)),
      bl.length = 24 := by
    intro bl hbl
    obtain ⟨b, _, rfl⟩ := List.mem_map.mp hbl
    exact utf8Encode_encode_byte_length b
  unfold decode
  rw [hbytes, show 8 * EXP_SIZE = 24 from rfl]
  rw [if_neg (show ¬(((utf8Encode s).map
      (fun b => utf8Encode (encode_byte b))).flatten.length % 24 ≠ 0) from by
    rw [flatten_length_const hblock]
    simp [Nat.mul_mod_right])]
  rw [chunksExact_flatten (by omega) _ hblock,
    collectBytes_blocks (utf8Encode s) (utf8Encode_lt_256 hs)]
  show utf8Chars (utf8Encode s) = some s
  exact utf8Chars_encode s hs

/-! ## Facade lemmas -/

/-- `create_secret` splits a valid cover at a character boundary: the result
is a character-level decomposition `cs1 ++ encode s ++ cs2` with
`cs1 ++ cs2 = c`. -/
theorem create_secret_split (c s : List Nat) (hc : IsStr c) :
    ∃ cs1 cs2, c = cs1 ++ cs2 ∧
      utf8Chars ((utf8Encode c).take
        (find_boundary (utf8Encode c) ((utf8Encode c).length / 2))) = some cs1 ∧
      utf8Chars ((utf8Encode c).drop
        (find_boundary (utf8Encode c) ((utf8Encode c).length / 2))) = some cs2 ∧
      create_secret c s = cs1 ++ encode s ++ cs2 := by
  have hv := utf8Chars_encode c hc
  have hmid_le := find_boundary_le (utf8Encode c) ((utf8Encode c).length / 2)
  have hbd := find_boundary_is_boundary (utf8Encode c) ((utf8Encode c).length / 2)
  obtain ⟨cs1, cs2, hsp, h1, h2⟩ := utf8Chars_split_at_boundary (utf8Encode c) c hv
    (find_boundary (utf8Encode c) ((utf8Encode c).length / 2))
    (le_trans hmid_le (Nat.div_le_self _ 2)) hbd
  refine ⟨cs1, cs2, hsp, h1, h2, ?_⟩
  unfold create_secret
  rw [h1, h2]
  rfl

theorem sanitize_append (a b : List Nat) :
    remove_unnecessary_symbols (a ++ b)
      = remove_unnecessary_symbols a ++ remove_unnecessary_symbols b := by
  unfold remove_unnecessary_symbols
  exact List.filter_append a b

theorem sanitize_cons_kept {ch : Nat} (h : ch = 0x200C ∨ ch = 0x7C ∨ ch = 0x200D)
    (l : List Nat) :
    remove_unnecessary_symbols (ch :: l) = ch :: remove_unnecessary_symbols l := by
  unfold remove_unnecessary_symbols
  rw [List.filter_cons, if_pos (by simp only [Bool.or_eq_true, beq_iff_eq]; omega)]

theorem sanitize_cons_other {ch : Nat} (h : ch ≠ 0x200C ∧ ch ≠ 0x7C ∧ ch ≠ 0x200D)
    (l : List Nat) :
    remove_unnecessary_symbols (ch :: l) = remove_unnecessary_symbols l := by
  unfold remove_unnecessary_symbols
  rw [List.filter_cons, if_neg (by simp only [Bool.or_eq_true, beq_iff_eq]; omega)]

theorem sanitize_eq_nil {l : List Nat}
    (h : ∀ ch ∈ l, ch ≠ 0x200C ∧ ch ≠ 0x7C ∧ ch ≠ 0x200D) :
    remove_unnecessary_symbols l = [] := by
  induction l with
  | nil => rfl
  | cons ch l ih =>
    rw [sanitize_cons_other (h ch (by simp)),
      ih (fun x hx => h x (List.mem_cons_of_mem ch hx))]

theorem sanitize_eq_self {l : List Nat} (h : ∀ ch ∈ l, ch = 0x200C ∨ ch = 0x200D) :
    remove_unnecessary_symbols l = l := by
  induction l with
  | nil => rfl
  | cons ch l ih =>
    rw [sanitize_cons_kept (by rcases h ch (by simp) with h' | h' <;> omega),
      ih (fun x hx => h x (List.mem_cons_of_mem ch hx))]

theorem encode_mem_marker {s : List Nat} {ch : Nat} (h : ch ∈ encode s) :
    ch = 0x200C ∨ ch = 0x200D := by
  unfold encode at h
  obtain ⟨bl, hbl, hch⟩ := List.mem_flatten.mp h
  obtain ⟨b, _, rfl⟩ := List.mem_map.mp hbl
  exact encode_byte_mem hch

/-- Sanitizing the output of `create_secret` over a clean cover (no markers
and no `'|'`) recovers exactly the embedded marker sequence. -/
theorem sanitize_create_secret {c : List Nat} (s : List Nat) (hc : IsStr c)
    (hclean : ∀ ch ∈ c, ch ≠ 0x200C ∧ ch ≠ 0x7C ∧ ch ≠ 0x200D) :
    remove_unnecessary_symbols (create_secret c s) = encode s := by
  obtain ⟨cs1, cs2, hsp, _, _, heq⟩ := create_secret_split c s hc
  have hcs1 : ∀ ch ∈ cs1, ch ≠ 0x200C ∧ ch ≠ 0x7C ∧ ch ≠ 0x200D :=
    fun ch hch => hclean ch (by rw [hsp]; exact List.mem_append_left cs2 hch)
  have hcs2 : ∀ ch ∈ cs2, ch ≠ 0x200C ∧ ch ≠ 0x7C ∧ ch ≠ 0x200D :=
    fun ch hch => hclean ch (by rw [hsp]; exact List.mem_append_right cs1 hch)
  rw [heq, sanitize_append, sanitize_append, sanitize_eq_nil hcs1, sanitize_eq_nil hcs2,
    sanitize_eq_self (fun ch hch => encode_mem_marker hch)]
  simp

/-- Full clean-cover round trip, shared by several claims below. -/
theorem extract_create {c s : List Nat} (hc : IsStr c) (hs : IsStr s)
    (hclean : ∀ ch ∈ c, ch ≠ 0x200C ∧ ch ≠ 0x7C ∧ ch ≠ 0x200D) :
    extract_secret (create_secret c s) = some s := by
  unfold extract_secret
  rw [sanitize_create_secret s hc hclean]
  exact decode_encode hs

/-- `Inserted P base t`: `t` arises from `base` by inserting, at arbitrary
positions, characters satisfying `P`. -/
inductive Inserted (P : Nat → Prop) : List Nat → List Nat → Prop
  | nil : Inserted P [] []
  | keep (ch : Nat) {l t : List Nat} : Inserted P l t → Inserted P (ch :: l) (ch :: t)
  | ins (ch : Nat) {l t : List Nat} : P ch → Inserted P l t → Inserted P l (ch :: t)

/-- Inserting characters the sanitizer discards does not change its output. -/
theorem Inserted_sanitize {P : Nat → Prop} {base t : List Nat}
    (hins : Inserted P base t)
    (hP : ∀ ch, P ch → ch ≠ 0x200C ∧ ch ≠ 0x7C ∧ ch ≠ 0x200D) :
    remove_unnecessary_symbols t = remove_unnecessary_symbols base := by
  induction hins with
  | nil => rfl
  | keep ch h ih =>
    by_cases hk : ch = 0x200C ∨ ch = 0x7C ∨ ch = 0x200D
    · rw [sanitize_cons_kept hk, sanitize_cons_kept hk, ih]
    · push_neg at hk
      rw [sanitize_cons_other hk, sanitize_cons_other hk, ih]
  | ins ch hch h ih =>
    rw [sanitize_cons_other (hP ch hch), ih]

/-! ## Claim theorems -/

/-- C5: Codec round-trip: for every payload text `s` (including the empty
string, whose encoding is the empty sequence and whose decoding is the
empty payload, not a failure), `decode(encode(s))` succeeds and returns
`s`. -/
theorem codec_roundtrip (s : List Nat) (hs : IsStr s) : decode (encode s) = some s :=
  decode_encode hs

/-- Witness for C5, at the empty payload and at `"hi"`. -/
theorem codec_roundtrip_witness :
    (IsStr [] ∧ decode (encode []) = some []) ∧
    (IsStr [104, 105] ∧ decode (encode [104, 105]) = some [104, 105]) :=
  ⟨⟨by decide, codec_roundtrip [] (by decide)⟩,
   ⟨by decide, codec_roundtrip [104, 105] (by decide)⟩⟩

/-- C9: Sanitizer idempotence: applying `remove_unnecessary_symbols` twice
yields the same result as applying it once. -/
theorem sanitizer_idempotent (t : List Nat) :
    remove_unnecessary_symbols (remove_unnecessary_symbols t)
      = remove_unnecessary_symbols t := by
  unfold remove_unnecessary_symbols
  rw [List.filter_filter]
  simp only [Bool.and_self]

/-- C2 (code bug): the sanitizer's output is NOT restricted to the markers
ZERO (U+200C) and ONE (U+200D): on the input `"|"` it keeps the vertical
bar, because the regex `[\u{200C}|\u{200D}]` built by the source is a
character class containing the literal `'|'`.  This contradicts the claim
and the function's own documentation, which promises a string "containing
only the `I_0` and `I_1` characters". -/
theorem sanitizer_keeps_pipe :
    remove_unnecessary_symbols [0x7C] = [0x7C] ∧
    (0x7C : Nat) ≠ 0x200C ∧ (0x7C : Nat) ≠ 0x200D := by
  decide

/-- C4 (counterexample): `recover("Hello world")` is `Some("")`, not the
absent value: the sanitizer leaves nothing and `decode("")` succeeds with
the empty payload, so the claim's expected `none` is wrong on this very
input. -/
theorem recover_hello_world_not_none :
    extract_secret [72, 101, 108, 108, 111, 32, 119, 111, 114, 108, 100] = some [] ∧
    some ([] : List Nat) ≠ none := by
  decide

/-- C4 (amended): on any input containing no ZERO (U+200C), no ONE
(U+200D) and no `'|'` character — in particular on `"Hello world"` — 
`recover` returns `Some` of the empty payload (not `none`). -/
theorem recover_markerfree_some_empty (m : List Nat)
    (h : ∀ ch ∈ m, ch ≠ 0x200C ∧ ch ≠ 0x7C ∧ ch ≠ 0x200D) :
    extract_secret m = some [] := by
  unfold extract_secret
  rw [sanitize_eq_nil h]
  decide

/-- Witness for the amended C4, at `"Hello world"`. -/
theorem recover_markerfree_witness :
    (∀ ch ∈ [72, 101, 108, 108, 111, 32, 119, 111, 114, 108, 100],
      ch ≠ 0x200C ∧ ch ≠ 0x7C ∧ ch ≠ 0x200D) ∧
    extract_secret [72, 101, 108, 108, 111, 32, 119, 111, 114, 108, 100] = some [] :=
  ⟨by decide, recover_markerfree_some_empty _ (by decide)⟩

/-- C6: `decode` on a marker sequence whose marker count is not a multiple
of 8 fails and returns no payload: the byte length `3 * count` is then not
a multiple of `8 * EXP_SIZE = 24` and the early length check (the
`MalformedLength` condition of the spec) rejects it. -/
theorem decode_malformed_length (s : List Nat)
    (hm : ∀ ch ∈ s, ch = 0x200C ∨ ch = 0x200D) (hlen : s.length % 8 ≠ 0) :
    decode s = none := by
  unfold decode
  rw [if_pos (by rw [utf8Encode_marker_length hm, show 8 * EXP_SIZE = 24 from rfl]; omega)]

/-- Witness for C6, at the one-marker sequence. -/
theorem decode_malformed_length_witness :
    (∀ ch ∈ [0x200C], ch = 0x200C ∨ ch = 0x200D) ∧
    ([0x200C] : List Nat).length % 8 ≠ 0 ∧ decode [0x200C] = none :=
  ⟨by decide, by decide, decode_malformed_length [0x200C] (by decide) (by decide)⟩

/-- C7: `decode_byte` fails exactly when its input does not have
`8 * EXP_SIZE` underlying bytes; on an input of exactly `8 * EXP_SIZE`
bytes it returns the byte (below 256) whose bit `i` is 1 iff the `i`-th
3-byte chunk equals ONE's encoding and 0 otherwise — in particular a chunk
matching neither marker contributes bit 0 and is never rejected. -/
theorem decode_byte_spec (s : List Nat) :
    (decode_byte s = none ↔ (utf8Encode s).length ≠ 8 * EXP_SIZE) ∧
    ((utf8Encode s).length = 8 * EXP_SIZE →
      ∃ b, decode_byte s = some b ∧ b < 256 ∧
        ∀ i, i < 8 →
          (b.testBit i = true ↔
            (chunksExact EXP_SIZE (utf8Encode s)).getD i [] = utf8Encode I_1)) := by
  by_cases h : (utf8Encode s).length = 8 * EXP_SIZE
  · have hval : decode_byte s = some (db_loop (chunksExact EXP_SIZE (utf8Encode s)) 0 0) := by
      unfold decode_byte
      rw [if_neg (by omega)]
    have hchunks_len : (chunksExact EXP_SIZE (utf8Encode s)).length = 8 := by
      rw [show EXP_SIZE = 3 from rfl] at h ⊢
      rw [chunksExact_length (by omega), h]
    constructor
    · rw [hval]
      constructor
      · intro hno; cases hno
      · intro hne; exact absurd h hne
    · intro _
      refine ⟨db_loop (chunksExact EXP_SIZE (utf8Encode s)) 0 0, hval, ?_, ?_⟩
      · have hlt := db_loop_lt (chunksExact EXP_SIZE (utf8Encode s)) 0 0 (by decide)
        rw [hchunks_len] at hlt
        simpa using hlt
      · intro i hi
        rw [db_loop_testBit]
        simp only [Nat.zero_testBit, Bool.false_or]
        rw [bitList_iff _ 0 i (Nat.zero_le i), hchunks_len]
        simp [hi]
  · constructor
    · rw [show decode_byte s = none from by unfold decode_byte; rw [if_pos h]]
      simp [h]
    · intro hlen; exact absurd hlen h

/-- Witness for C7, at the 8-marker string encoding the byte 1. -/
theorem decode_byte_spec_witness :
    (utf8Encode [0x200D, 0x200C, 0x200C, 0x200C, 0x200C, 0x200C, 0x200C, 0x200C]).length
      = 8 * EXP_SIZE ∧
    ∃ b, decode_byte [0x200D, 0x200C, 0x200C, 0x200C, 0x200C, 0x200C, 0x200C, 0x200C]
        = some b ∧ b < 256 ∧
      ∀ i, i < 8 →
        (b.testBit i = true ↔
          (chunksExact EXP_SIZE (utf8Encode
            [0x200D, 0x200C, 0x200C, 0x200C, 0x200C, 0x200C, 0x200C, 0x200C])).getD i []
            = utf8Encode I_1) :=
  ⟨by decide,
   (decode_byte_spec [0x200D, 0x200C, 0x200C, 0x200C, 0x200C, 0x200C, 0x200C, 0x200C]).2
     (by decide)⟩

/-- C8: Embed boundary safety and termination: the boundary search starts at
`⌊byteLength(cover)/2⌋` and stops at a position no larger (it is ℕ-valued,
so it never goes below 0, and it terminates because position 0 is always a
valid boundary); the chosen split point is a valid character boundary of
the cover — both byte spans around it decode as UTF-8, so the split is
never inside a multi-byte character — and `embed` always succeeds,
returning `cs1 ++ encode s ++ cs2` with `cs1 ++ cs2 = c`. -/
theorem embed_boundary_safety (c s : List Nat) (hc : IsStr c) :
    find_boundary (utf8Encode c) ((utf8Encode c).length / 2)
      ≤ (utf8Encode c).length / 2 ∧
    is_char_boundary (utf8Encode c)
      (find_boundary (utf8Encode c) ((utf8Encode c).length / 2)) = true ∧
    ∃ cs1 cs2, c = cs1 ++ cs2 ∧
      utf8Chars ((utf8Encode c).take
        (find_boundary (utf8Encode c) ((utf8Encode c).length / 2))) = some cs1 ∧
      utf8Chars ((utf8Encode c).drop
        (find_boundary (utf8Encode c) ((utf8Encode c).length / 2))) = some cs2 ∧
      create_secret c s = cs1 ++ encode s ++ cs2 :=
  ⟨find_boundary_le _ _, find_boundary_is_boundary _ _, create_secret_split c s hc⟩

/-- Witness for C8 at the cover `"ь"` (a 2-byte character, so the midpoint
byte index 1 is not a boundary and the search must walk down to 0) and the
empty secret. -/
theorem embed_boundary_safety_witness :
    IsStr [0x44C] ∧
    (find_boundary (utf8Encode [0x44C]) ((utf8Encode [0x44C]).length / 2)
      ≤ (utf8Encode [0x44C]).length / 2 ∧
    is_char_boundary (utf8Encode [0x44C])
      (find_boundary (utf8Encode [0x44C]) ((utf8Encode [0x44C]).length / 2)) = true ∧
    ∃ cs1 cs2, [0x44C] = cs1 ++ cs2 ∧
      utf8Chars ((utf8Encode [0x44C]).take
        (find_boundary (utf8Encode [0x44C]) ((utf8Encode [0x44C]).length / 2))) = some cs1 ∧
      utf8Chars ((utf8Encode [0x44C]).drop
        (find_boundary (utf8Encode [0x44C]) ((utf8Encode [0x44C]).length / 2))) = some cs2 ∧
      create_secret [0x44C] [] = cs1 ++ encode [] ++ cs2) :=
  ⟨by decide, embed_boundary_safety [0x44C] [] (by decide)⟩

/-- C10: Conditional facade round-trip: for every secret `s` and every
cover `c` containing no ZERO (U+200C), no ONE (U+200D) and no vertical bar
`'|'` (U+007C), `recover(embed(c, s))` returns `Some(s)`. -/
theorem facade_roundtrip_clean_cover (c s : List Nat) (hc : IsStr c) (hs : IsStr s)
    (hclean : ∀ ch ∈ c, ch ≠ 0x200C ∧ ch ≠ 0x7C ∧ ch ≠ 0x200D) :
    extract_secret (create_secret c s) = some s :=
  extract_create hc hs hclean

/-- Witness for C10 at the cover `"Hello world"` and the secret `"hi"`. -/
theorem facade_roundtrip_clean_cover_witness :
    IsStr [72, 101, 108, 108, 111, 32, 119, 111, 114, 108, 100] ∧ IsStr [104, 105] ∧
    (∀ ch ∈ [72, 101, 108, 108, 111, 32, 119, 111, 114, 108, 100],
      ch ≠ 0x200C ∧ ch ≠ 0x7C ∧ ch ≠ 0x200D) ∧
    extract_secret (create_secret [72, 101, 108, 108, 111, 32, 119, 111, 114, 108, 100]
      [104, 105]) = some [104, 105] :=
  ⟨by decide, by decide, by decide,
   facade_roundtrip_clean_cover [72, 101, 108, 108, 111, 32, 119, 111, 114, 108, 100]
     [104, 105] (by decide) (by decide) (by decide)⟩

/-- C1 (counterexample): the unconditional facade round-trip is false: for
the covers `"\u{200C}"` (a marker) and `"|"` (kept by the sanitizer's
character class) with the empty secret, `recover(embed(c, ""))` is `none`,
not `Some("")`. -/
theorem facade_roundtrip_fails_dirty_cover :
    extract_secret (create_secret [0x200C] []) ≠ some [] ∧
    extract_secret (create_secret [0x7C] []) ≠ some [] := by
  decide

/-- C1 (amended): facade round-trip for covers containing none of ZERO
(U+200C), ONE (U+200D) and `'|'` (U+007C): for every such cover `c` and
every secret `s`, `recover(embed(c, s))` returns `Some(s)`. -/
theorem facade_roundtrip_amended (c s : List Nat) (hc : IsStr c) (hs : IsStr s)
    (hclean : ∀ ch ∈ c, ch ≠ 0x200C ∧ ch ≠ 0x7C ∧ ch ≠ 0x200D) :
    extract_secret (create_secret c s) = some s :=
  extract_create hc hs hclean

/-- Witness for the amended C1, at the cover `"ab"` and the secret `"ь"`. -/
theorem facade_roundtrip_amended_witness :
    IsStr [97, 98] ∧ IsStr [0x44C] ∧
    (∀ ch ∈ [97, 98], ch ≠ 0x200C ∧ ch ≠ 0x7C ∧ ch ≠ 0x200D) ∧
    extract_secret (create_secret [97, 98] [0x44C]) = some [0x44C] :=
  ⟨by decide, by decide, by decide,
   facade_roundtrip_amended [97, 98] [0x44C] (by decide) (by decide) (by decide)⟩

/-- C3 (counterexample): noise robustness as claimed is false: inserting
the non-marker character `'|'` into `embed("", "")` (the empty string, with
no marker run to fall inside) gives `"|"`, and `recover "|"` is `none`, not
`Some("")`; moreover, for the cover `"\u{200C}"` even the insertion-free
case (`t = embed(c, "")` itself) already recovers to `none`. -/
theorem noise_robustness_fails :
    (Inserted (fun ch => ch ≠ 0x200C ∧ ch ≠ 0x200D) (create_secret [] []) [0x7C] ∧
      extract_secret [0x7C] = none) ∧
    (Inserted (fun ch => ch ≠ 0x200C ∧ ch ≠ 0x200D) (create_secret [0x200C] []) [0x200C] ∧
      extract_secret [0x200C] = none) := by
  refine ⟨⟨?_, by decide⟩, ⟨?_, by decide⟩⟩
  · rw [show create_secret [] [] = [] from by decide]
    exact Inserted.ins 0x7C (by decide) Inserted.nil
  · rw [show create_secret [0x200C] [] = [0x200C] from by decide]
    exact Inserted.keep 0x200C Inserted.nil

/-- C3 (amended): noise robustness for clean covers and clean noise: if the
cover contains none of ZERO, ONE, `'|'` and `t` is obtained from
`embed(c, s)` by inserting, at arbitrary positions, characters that are
none of ZERO, ONE, `'|'`, then `recover(t)` still returns `Some(s)`. -/
theorem noise_robustness_amended (c s t : List Nat) (hc : IsStr c) (hs : IsStr s)
    (hclean : ∀ ch ∈ c, ch ≠ 0x200C ∧ ch ≠ 0x7C ∧ ch ≠ 0x200D)
    (hins : Inserted (fun ch => ch ≠ 0x200C ∧ ch ≠ 0x7C ∧ ch ≠ 0x200D)
      (create_secret c s) t) :
    extract_secret t = some s := by
  unfold extract_secret
  rw [Inserted_sanitize hins (fun ch h => h), sanitize_create_secret s hc hclean]
  exact decode_encode hs

/-- Witness for the amended C3: cover `"a"`, empty secret, noise `'x'`
inserted in front. -/
theorem noise_robustness_amended_witness :
    IsStr [97] ∧ IsStr [] ∧
    (∀ ch ∈ [97], ch ≠ 0x200C ∧ ch ≠ 0x7C ∧ ch ≠ 0x200D) ∧
    Inserted (fun ch => ch ≠ 0x200C ∧ ch ≠ 0x7C ∧ ch ≠ 0x200D)
      (create_secret [97] []) [120, 97] ∧
    extract_secret [120, 97] = some [] := by
  have hins : Inserted (fun ch => ch ≠ 0x200C ∧ ch ≠ 0x7C ∧ ch ≠ 0x200D)
      (create_secret [97] []) [120, 97] := by
    rw [show create_secret [97] [] = [97] from by decide]
    exact Inserted.ins 120 (by decide) (Inserted.keep 97 Inserted.nil)
  exact ⟨by decide, by decide, by decide, hins,
    noise_robustness_amended [97] [] [120, 97] (by decide) (by decide) (by decide) hins⟩

end Evaporatext
